import Mathlib

/-!
Verification of the string-value subsystem of `goja` (`string_unicode.go`),
shallowly embedded in Lean 4.

The wide representation (`unicodeString`, a `[]uint16`) is modelled as
`List Nat` holding the physical buffer (sentinel included); the compact
representation (`asciiString`, a `[]byte`) is modelled as `List Nat` holding
the bytes.  Machine integers are modelled as `Nat` / `Int` with explicit
truncation (`% 0x100`, ...) where Go truncates.  Go panics (out-of-range
indexing) are modelled by `Option`: `none` is a fault.
-/

namespace GojaStr

/-- `unistring.BOM`, the sentinel unit at physical position 0 of every wide
value. -/
def BOM : Nat := 0xFEFF

/-- `utf8.RuneSelf` (0x80): first non-ASCII code point. -/
def runeSelf : Nat := 0x80

/-- Modelled from the spec: `isUTF16FirstSurrogate` is declared outside the
given source file; the spec glossary fixes leading surrogates to the range
[0xD800, 0xDBFF]. -/
def isUTF16FirstSurrogate (r : Nat) : Bool :=
  decide (0xD800 ≤ r) && decide (r ≤ 0xDBFF)

/-- Modelled from the spec: `isUTF16SecondSurrogate` is declared outside the
given source file; the spec glossary fixes trailing surrogates to the range
[0xDC00, 0xDFFF]. -/
def isUTF16SecondSurrogate (r : Nat) : Bool :=
  decide (0xDC00 ≤ r) && decide (r ≤ 0xDFFF)

/-- Go's `utf16.DecodeRune`: combines a valid surrogate pair into a
supplementary code point, yielding U+FFFD on invalid input. -/
def utf16DecodeRunePair (r1 r2 : Nat) : Nat :=
  if isUTF16FirstSurrogate r1 && isUTF16SecondSurrogate r2 then
    (r1 - 0xD800) * 0x400 + (r2 - 0xDC00) + 0x10000
  else 0xFFFD

/-- Go's `utf16.EncodeRune`: splits a supplementary code point into its
surrogate pair, yielding (U+FFFD, U+FFFD) for code points that do not need
surrogate encoding or are out of range. -/
def utf16EncodeRunePair (r : Nat) : Nat × Nat :=
  if decide (0x10000 ≤ r) && decide (r ≤ 0x10FFFF) then
    ((r - 0x10000) / 0x400 + 0xD800, (r - 0x10000) % 0x400 + 0xDC00)
  else (0xFFFD, 0xFFFD)

/-- The UTF-16 code units of a code point: itself when in the BMP (lone
surrogates included, as the lenient decoder emits them unchanged), else its
surrogate pair. -/
def encodeUnits (cp : Nat) : List Nat :=
  if cp ≤ 0xFFFF then [cp]
  else [(utf16EncodeRunePair cp).1, (utf16EncodeRunePair cp).2]

/-- Go's `utf16.Decode`: surrogate pairs are combined, lone surrogates are
replaced by U+FFFD.  (Used by `unicodeString.String()`.) -/
def utf16DecodeList : List Nat → List Nat
  | [] => []
  | u :: rest =>
    if isUTF16FirstSurrogate u then
      match rest with
      | v :: rest2 =>
        if isUTF16SecondSurrogate v then
          utf16DecodeRunePair u v :: utf16DecodeList rest2
        else 0xFFFD :: utf16DecodeList (v :: rest2)
      | [] => [0xFFFD]
    else if isUTF16SecondSurrogate u then 0xFFFD :: utf16DecodeList rest
    else u :: utf16DecodeList rest

/-- A string value: the closed union of the two representations.
`asciiStr` holds the bytes of a compact value, `unicodeStr` holds the
physical (sentinel-prefixed) units of a wide value. -/
inductive ValueString where
  | asciiStr (b : List Nat)
  | unicodeStr (w : List Nat)
deriving DecidableEq

/-- Whether a value is stored in the compact representation. -/
def ValueString.isCompact : ValueString → Bool
  | .asciiStr _ => true
  | .unicodeStr _ => false

/-- The logical code-unit content of a value: compact bytes verbatim, wide
physical units with the sentinel stripped. -/
def ValueString.logicalUnits : ValueString → List Nat
  | .asciiStr b => b
  | .unicodeStr w => w.drop 1

/-- `valueString.length()` (number of logical code units). -/
def ValueString.lengthV : ValueString → Nat
  | .asciiStr b => b.length
  | .unicodeStr w => w.length - 1

/-! ### Decode-policy family -/

/-- `utf16RuneReader.ReadRune`: the raw unit reader.  State is the list of
units not yet read; `none` is `io.EOF`. -/
def utf16ReaderRead : List Nat → Option (Nat × List Nat)
  | [] => none
  | u :: rest => some (u, rest)

theorem utf16ReaderRead_length {s rest2 : List Nat} {r : Nat}
    (h : utf16ReaderRead s = some (r, rest2)) : rest2.length < s.length := by
  cases s with
  | nil => simp [utf16ReaderRead] at h
  | cons u rest =>
    simp only [utf16ReaderRead, Option.some.injEq, Prod.mk.injEq] at h
    obtain ⟨-, h2⟩ := h
    subst h2
    simp

/-- Draining the raw unit reader: the sequence of units it emits until EOF. -/
def utf16Drain (s : List Nat) : List Nat :=
  match h : utf16ReaderRead s with
  | none => []
  | some (r, rest2) => r :: utf16Drain rest2
termination_by s.length
decreasing_by exact utf16ReaderRead_length h

/-- State of `lenientUtf16Decoder` over a raw `utf16RuneReader`: the
lookahead buffer (`prev`/`prevSet`, as `Option`) and the units not yet
consumed by the underlying reader. -/
structure LenientState where
  pending : Option Nat
  rest : List Nat
deriving DecidableEq

/-- `lenientUtf16Decoder.ReadRune` over a raw `utf16RuneReader`: takes the
pending unit if set, else reads one; a leading surrogate tries to pair with
the next unit, stashing it as pending when it is not a trailing surrogate;
EOF while looking for the second half returns the leading surrogate alone. -/
def lenientRead (st : LenientState) : Option (Nat × LenientState) :=
  match st.pending, st.rest with
  | some p, rest =>
    if isUTF16FirstSurrogate p then
      match rest with
      | [] => some (p, ⟨none, []⟩)
      | v :: rest2 =>
        if isUTF16SecondSurrogate v then
          some (utf16DecodeRunePair p v, ⟨none, rest2⟩)
        else some (p, ⟨some v, rest2⟩)
    else some (p, ⟨none, rest⟩)
  | none, [] => none
  | none, u :: rest1 =>
    if isUTF16FirstSurrogate u then
      match rest1 with
      | [] => some (u, ⟨none, []⟩)
      | v :: rest2 =>
        if isUTF16SecondSurrogate v then
          some (utf16DecodeRunePair u v, ⟨none, rest2⟩)
        else some (u, ⟨some v, rest2⟩)
    else some (u, ⟨none, rest1⟩)

/-- Measure on the lenient decoder's state: units still owed. -/
def lenientMeasure (st : LenientState) : Nat :=
  (match st.pending with | some _ => 1 | none => 0) + st.rest.length

theorem lenientRead_measure (st : LenientState) (r : Nat) (st' : LenientState)
    (h : lenientRead st = some (r, st')) : lenientMeasure st' < lenientMeasure st := by
  rcases st with ⟨pending, rest⟩
  rcases pending with _ | p <;> rcases rest with _ | ⟨u, rest1⟩
  · simp [lenientRead] at h
  · rcases rest1 with _ | ⟨v, rest2⟩
    · simp only [lenientRead] at h
      split at h <;>
      · rw [Option.some.injEq, Prod.mk.injEq] at h
        obtain ⟨-, h2⟩ := h
        subst h2
        simp [lenientMeasure]
    · simp only [lenientRead] at h
      split at h
      · split at h <;>
        · rw [Option.some.injEq, Prod.mk.injEq] at h
          obtain ⟨-, h2⟩ := h
          subst h2
          simp [lenientMeasure] <;> omega
      · rw [Option.some.injEq, Prod.mk.injEq] at h
        obtain ⟨-, h2⟩ := h
        subst h2
        simp [lenientMeasure]
  · simp only [lenientRead] at h
    split at h <;>
    · rw [Option.some.injEq, Prod.mk.injEq] at h
      obtain ⟨-, h2⟩ := h
      subst h2
      simp [lenientMeasure]
  · simp only [lenientRead] at h
    split at h
    · split at h <;>
      · rw [Option.some.injEq, Prod.mk.injEq] at h
        obtain ⟨-, h2⟩ := h
        subst h2
        simp [lenientMeasure] <;> omega
    · rw [Option.some.injEq, Prod.mk.injEq] at h
      obtain ⟨-, h2⟩ := h
      subst h2
      simp [lenientMeasure]

/-- Repeatedly calling the lenient decoder's read until end-of-input: the
sequence of code points it emits. -/
def lenientDrain (st : LenientState) : List Nat :=
  match h : lenientRead st with
  | none => []
  | some (r, st') => r :: lenientDrain st'
termination_by lenientMeasure st
decreasing_by exact lenientRead_measure st r st' h

/-- `unicodeRuneReader.ReadRune` (strict decode policy), one read at
position `pos` of the unit sequence `s`. -/
inductive StrictResult where
  | ok (r : Nat) (size : Nat)
  | invalid
  | eof
deriving DecidableEq

/-- `unicodeRuneReader.ReadRune`: combines a leading surrogate with an
immediately following trailing surrogate; a leading surrogate that cannot
pair, or a trailing surrogate at the read position, yields
`InvalidRuneError`; past the end yields `io.EOF`. -/
def strictRead (s : List Nat) (pos : Nat) : StrictResult :=
  match s[pos]? with
  | none => .eof
  | some r =>
    if isUTF16FirstSurrogate r then
      match s[pos + 1]? with
      | some second =>
        if isUTF16SecondSurrogate second then
          .ok (utf16DecodeRunePair r second) 2
        else .invalid
      | none => .invalid
    else if isUTF16SecondSurrogate r then .invalid
    else .ok r 1

/-! ### Operations on wide values (`unicodeString` methods) -/

/-- `unicodeString.ToBoolean`: `len(s) > 0` over the physical buffer. -/
def uToBoolean (s : List Nat) : Bool :=
  decide (0 < s.length)

/-- `unicodeString.length`: `len(s) - 1`. -/
def uLength (s : List Nat) : Nat :=
  s.length - 1

/-- `unicodeString.charAt`: `rune(s[idx+1])`; `none` models the Go panic on
an out-of-range physical index. -/
def uCharAt (s : List Nat) (idx : Nat) : Option Nat :=
  s[idx + 1]?

/-- `unicodeString.equals`: length comparison then element-wise comparison
of the physical buffers. -/
def uEqualsU (s other : List Nat) : Bool :=
  if s.length ≠ other.length then false
  else (List.zip s other).all fun p => p.1 = p.2

/-- `unicodeString.SameAs`: element-wise equality when the operand is also a
wide value, `false` for any other operand. -/
def uSameAs (s : List Nat) (other : ValueString) : Bool :=
  match other with
  | .unicodeStr w => uEqualsU s w
  | .asciiStr _ => false

/-- `unicodeString.Equals` restricted to string operands (an `*Object`
operand would be unwrapped once; a plain string value is not an object, so
the fallthrough returns `false`). -/
def uEqualsV (s : List Nat) (other : ValueString) : Bool :=
  if uSameAs s other then true else false

/-- `unicodeString.StrictEquals`: delegates to `SameAs`. -/
def uStrictEquals (s : List Nat) (other : ValueString) : Bool :=
  uSameAs s other

/-- `unicodeString.concat`: the receiver's physical buffer (sentinel
included) followed by the operand's logical units; always a wide result.
The ascii operand's bytes are widened to units (`uint16(other[i])`). -/
def uConcat (s : List Nat) (other : ValueString) : ValueString :=
  match other with
  | .unicodeStr w => .unicodeStr (s ++ w.drop 1)
  | .asciiStr b => .unicodeStr (s ++ b)

/-- `unicodeString.substring`: the physical slice `s[start+1 : end+1]`; a
wide (sentinel-prefixed) copy when the slice holds a unit ≥ 0x80, else the
slice narrowed to bytes (`byte(c)`, i.e. `% 0x100`). -/
def uSubstring (s : List Nat) (start stop : Nat) : ValueString :=
  let ss := (s.drop (start + 1)).take (stop - start)
  if ss.any fun c => runeSelf ≤ c then .unicodeStr (BOM :: ss)
  else .asciiStr (ss.map fun c => c % 0x100)

/-! ### Substring search (`index` / `lastIndex`) -/

/-- Checked indexing with a Go `int` index: `none` models the panic on a
negative or too-large index. -/
def getAtI (l : List Nat) (i : Int) : Option Nat :=
  if i < 0 then none else l[i.toNat]?

/-- The inner comparison loop shared by `index` and `lastIndex`: compares
`s1[start+i]` with `ss[i]` for `i = 0, 1, ...`; `some true` is a match,
`some false` the `goto nomatch`, `none` an out-of-range access. -/
def matchFrom (s1 : List Nat) (start : Int) : List Nat → Int → Option Bool
  | [], _ => some true
  | c :: cs, i =>
    match getAtI s1 (start + i) with
    | none => none
    | some u => if u ≠ c then some false else matchFrom s1 start cs (i + 1)

/-- The units of the needle as extracted by `index`/`lastIndex`: a wide
needle loses its sentinel, an ascii needle's bytes are widened. -/
def needleUnits : ValueString → List Nat
  | .asciiStr b => b
  | .unicodeStr w => w.drop 1

/-- The scanning loop of `unicodeString.index`: increasing positions while
`start ≤ end`. -/
def indexLoop (s1 ss : List Nat) (endI start : Int) : Option Int :=
  if h : start ≤ endI then
    match matchFrom s1 start ss 0 with
    | none => none
    | some true => some start
    | some false => indexLoop s1 ss endI (start + 1)
  else some (-1)
termination_by (endI + 1 - start).toNat
decreasing_by omega

/-- `unicodeString.index`: scans `s1 = s[1:]` for the needle's units from
`start` up to `end = len(s1) - len(ss)`. -/
def uIndex (s : List Nat) (substr : ValueString) (start : Int) : Option Int :=
  let ss := needleUnits substr
  let s1 := s.drop 1
  indexLoop s1 ss ((s1.length : Int) - (ss.length : Int)) start

/-- The scanning loop of `unicodeString.lastIndex`: decreasing positions
while `start >= 0`. -/
def lastIndexLoop (s1 ss : List Nat) (start : Int) : Option Int :=
  if h : 0 ≤ start then
    match matchFrom s1 start ss 0 with
    | none => none
    | some true => some start
    | some false => lastIndexLoop s1 ss (start - 1)
  else some (-1)
termination_by (start + 1).toNat
decreasing_by omega

/-- `unicodeString.lastIndex`: clamps `start` down to
`maxStart = len(s1) - len(ss)` then scans decreasing positions. -/
def uLastIndex (s : List Nat) (substr : ValueString) (start : Int) : Option Int :=
  let ss := needleUnits substr
  let s1 := s.drop 1
  let maxStart : Int := (s1.length : Int) - (ss.length : Int)
  lastIndexLoop s1 ss (if maxStart < start then maxStart else start)

/-! ### Case conversion -/

/-- Modelled from the spec: the default (root-locale) Unicode case-mapping
function is an external collaborator (§6), not part of this repository; per
standard Unicode case-mapping data a code point that is already lowercase
maps to itself under lowercasing, so on the already-lowercase sequences this
development evaluates it on (Greek alpha/beta, iota subscript, sigmas) it is
the identity. -/
def defaultLower (r : List Nat) : List Nat := r

/-- The post-correction loop of `unicodeString.toLower` together with its
`ascii` flag: walks the code-point list with the previously seen code point
(`prev`, `none` at the start, i.e. `i == 0`); when `r[i] == 0x345`,
`r[i+1] == 0x3c2` and `prev` is not `0x3b1`, the `0x3c2` is rewritten to
`0x3c3` and the index skips past it (so the rewritten `0x3c3`, which is
≥ 0x80, is the element the ascii check sees).  The last element is checked
by the trailing `r[len(r)-1] < utf8.RuneSelf` test, folded into the
singleton case here. -/
def lowerSigmaScan (prev : Option Nat) : List Nat → List Nat × Bool
  | [] => ([], true)
  | [x] => ([x], decide (x < runeSelf))
  | x :: y :: rest =>
    if (prev = none ∨ prev ≠ some 0x3b1) ∧ x = 0x345 ∧ y = 0x3c2 then
      let t := lowerSigmaScan (some 0x3c3) rest
      (x :: 0x3c3 :: t.1, false)
    else
      let t := lowerSigmaScan (some x) (y :: rest)
      (x :: t.1, decide (x < runeSelf) && t.2)

/-- Go's `utf16.Encode` of a single rune (surrogate code points and
out-of-range values become U+FFFD), as used through
`unistring.NewFromRunes(...).AsUtf16()`. -/
def goEncodeUtf16Unit (cp : Nat) : List Nat :=
  if cp < 0x10000 then
    if isUTF16FirstSurrogate cp || isUTF16SecondSurrogate cp then [0xFFFD] else [cp]
  else if cp ≤ 0x10FFFF then
    [(utf16EncodeRunePair cp).1, (utf16EncodeRunePair cp).2]
  else [0xFFFD]

/-- Modelled from the spec: `unicodeStringFromRunes` goes through
`unistring.NewFromRunes(r).AsUtf16()`, outside the given source file; per
§3 the wide representation is the sentinel followed by the UTF-16 encoding
of the code-point sequence. -/
def unicodeStringFromRunes (r : List Nat) : List Nat :=
  BOM :: r.foldr (fun cp acc => goEncodeUtf16Unit cp ++ acc) []

/-- `unicodeString.toLower`: decode the logical units (lone surrogates
replaced), lowercase via the external caser, run the final-sigma
post-correction with its fused ascii scan, then select the representation.
`none` models the Go panic at `r[len(r)-1]` when the code-point list is
empty (possible only for a wide value with empty logical content). -/
def toLower (s : List Nat) : Option ValueString :=
  let r0 := defaultLower (utf16DecodeList (s.drop 1))
  match r0 with
  | [] => none
  | _ :: _ =>
    let t := lowerSigmaScan none r0
    some (if t.2 then .asciiStr t.1 else .unicodeStr (unicodeStringFromRunes t.1))

/-- Modelled from the spec: the external default uppercasing function (§6)
followed by `newStringValue` (outside the given source file), which per §4.4
selects the compact representation exactly when every resulting code point
is < 0x80.  The mapping data being external, the caser is a parameter. -/
def toUpperWith (caser : List Nat → List Nat) (s : List Nat) : ValueString :=
  let r := caser (utf16DecodeList (s.drop 1))
  if r.all fun cp => cp < runeSelf then .asciiStr r
  else .unicodeStr (unicodeStringFromRunes r)

/-! ### Two-tier string builder -/

/-- The combined state of `valueStringBuilder` (the compact tier
`asciiBuilder` and the wide tier `unicodeStringBuilder` with its `buf` and
`unicode` flag). -/
structure Builder where
  asciiBuf : List Nat
  buf : List Nat
  unicode : Bool
deriving DecidableEq

/-- The empty builder. -/
def Builder.empty : Builder := ⟨[], [], false⟩

/-- `valueStringBuilder.ascii`: `len(b.unicodeBuilder.buf) == 0`. -/
def Builder.isAsciiTier (b : Builder) : Bool :=
  decide (b.buf = [])

/-- `unicodeStringBuilder.ensureStarted`: appends the sentinel when the wide
buffer is still empty (growth is capacity-only and is not modelled). -/
def ensureStarted (buf : List Nat) : List Nat :=
  if buf = [] then [BOM] else buf

/-- `unicodeStringBuilder.WriteString`: appends a wide argument's logical
units and marks the builder unicode, or appends an ascii argument's bytes
widened to units. -/
def ubWriteString (buf : List Nat) (u : Bool) (s : ValueString) : List Nat × Bool :=
  let buf1 := ensureStarted buf
  match s with
  | .unicodeStr w => (buf1 ++ w.drop 1, true)
  | .asciiStr bs => (buf1 ++ bs, u)

/-- `unicodeStringBuilder.WriteRune`: a BMP code point is appended as one
unit (flag set when it is ≥ 0x80), a supplementary one as its surrogate
pair (flag always set). -/
def ubWriteRune (buf : List Nat) (u : Bool) (r : Nat) : List Nat × Bool :=
  if r ≤ 0xFFFF then
    (ensureStarted buf ++ [r], u || decide (runeSelf ≤ r))
  else
    (ensureStarted buf ++ [(utf16EncodeRunePair r).1, (utf16EncodeRunePair r).2], true)

/-- `unicodeStringBuilder.writeASCIIString`: appends the bytes widened to
units, leaving the flag alone. -/
def ubWriteASCIIString (buf : List Nat) (bs : List Nat) : List Nat :=
  ensureStarted buf ++ bs

/-- `unicodeStringBuilder.String`: the wide buffer as a wide value when the
flag is set; else the empty compact value on an empty buffer, or the buffer
(sentinel stripped) narrowed to bytes. -/
def ubString (buf : List Nat) (u : Bool) : ValueString :=
  if u then .unicodeStr buf
  else if buf = [] then .asciiStr []
  else .asciiStr ((buf.drop 1).map fun c => c % 0x100)

/-- `valueStringBuilder.switchToUnicode`: transcodes the compact tier into
the (freshly started) wide buffer and clears it. -/
def Builder.switchToUnicode (b : Builder) : Builder :=
  if b.isAsciiTier then
    ⟨[], ubWriteASCIIString b.buf b.asciiBuf, b.unicode⟩
  else b

/-- `valueStringBuilder.WriteString`. -/
def Builder.writeString (b : Builder) (s : ValueString) : Builder :=
  match s with
  | .asciiStr bs =>
    if b.isAsciiTier then { b with asciiBuf := b.asciiBuf ++ bs }
    else { b with buf := ubWriteASCIIString b.buf bs }
  | .unicodeStr _ =>
    let b1 := b.switchToUnicode
    let p := ubWriteString b1.buf b1.unicode s
    ⟨b1.asciiBuf, p.1, p.2⟩

/-- `valueStringBuilder.WriteASCII`. -/
def Builder.writeASCII (b : Builder) (bs : List Nat) : Builder :=
  if b.isAsciiTier then { b with asciiBuf := b.asciiBuf ++ bs }
  else { b with buf := ubWriteASCIIString b.buf bs }

/-- `valueStringBuilder.WriteRune`. -/
def Builder.writeRune (b : Builder) (r : Nat) : Builder :=
  if r < runeSelf then
    if b.isAsciiTier then { b with asciiBuf := b.asciiBuf ++ [r] }
    else
      let p := ubWriteRune b.buf b.unicode r
      ⟨b.asciiBuf, p.1, p.2⟩
  else
    let b1 := b.switchToUnicode
    let p := ubWriteRune b1.buf b1.unicode r
    ⟨b1.asciiBuf, p.1, p.2⟩

/-- `valueStringBuilder.WriteSubstring`: an ascii source appends its byte
range to the current tier; a wide source on a still-compact builder scans
the range once, either narrowing it into the compact tier or promoting and
appending the physical slice (marking the builder unicode). -/
def Builder.writeSubstring (b : Builder) (source : ValueString) (start stop : Nat) : Builder :=
  match source with
  | .asciiStr bs =>
    let slice := (bs.drop start).take (stop - start)
    if b.isAsciiTier then { b with asciiBuf := b.asciiBuf ++ slice }
    else { b with buf := ubWriteASCIIString b.buf slice }
  | .unicodeStr w =>
    let slice := (w.drop (start + 1)).take (stop - start)
    if b.isAsciiTier then
      if slice.any fun c => runeSelf ≤ c then
        let b1 := b.switchToUnicode
        ⟨b1.asciiBuf, b1.buf ++ slice, true⟩
      else { b with asciiBuf := b.asciiBuf ++ slice.map fun c => c % 0x100 }
    else ⟨b.asciiBuf, b.buf ++ slice, true⟩

/-- `valueStringBuilder.String` (builder finalization). -/
def Builder.finalize (b : Builder) : ValueString :=
  if b.isAsciiTier then .asciiStr b.asciiBuf
  else ubString b.buf b.unicode

/-- One public builder write, for quantifying over write sequences. -/
inductive BuilderOp where
  | writeStr (v : ValueString)
  | writeASCII (bs : List Nat)
  | writeRune (r : Nat)
  | writeSub (v : ValueString) (start stop : Nat)

/-- Applying one write to a builder. -/
def applyOp (b : Builder) : BuilderOp → Builder
  | .writeStr v => b.writeString v
  | .writeASCII bs => b.writeASCII bs
  | .writeRune r => b.writeRune r
  | .writeSub v start stop => b.writeSubstring v start stop

/-- Running a sequence of writes from the empty builder. -/
def buildAll (ops : List BuilderOp) : Builder :=
  ops.foldl applyOp Builder.empty

/-! ### Spec-side definitions -/

/-- The representation invariant of §3 as it actually holds of constructed
values: compact values hold only units < 0x80, wide values hold at least one
logical unit ≥ 0x80. -/
def ValueInv : ValueString → Prop
  | .asciiStr b => ∀ u ∈ b, u < runeSelf
  | .unicodeStr w => ∃ u ∈ w.drop 1, runeSelf ≤ u

/-- Validity of a builder write's arguments: written values satisfy the
representation invariant, raw ascii writes are ascii, substring bounds are
in range (the caller-guaranteed contract of §4.1/§4.3). -/
def OpValid : BuilderOp → Prop
  | .writeStr v => ValueInv v
  | .writeASCII bs => ∀ u ∈ bs, u < runeSelf
  | .writeRune _ => True
  | .writeSub v start stop => ValueInv v ∧ start ≤ stop ∧ stop ≤ v.lengthV

/-- Modelled from the spec: the compact representation's `charAt` (its
methods live outside the given source file); §3: logical index `i` maps
directly to byte `i`. -/
def aCharAt (b : List Nat) (i : Nat) : Option Nat := b[i]?

/-- Whether the needle `ss` occurs in `s1` at position `p` (the spec's
notion of a match position: the code units at `[p, p+|ss|)` equal `ss`). -/
def matchesAt (s1 ss : List Nat) (p : Nat) : Bool :=
  decide ((s1.drop p).take ss.length = ss)

/-- The naive scan over a given list of candidate positions: the first one
where the needle matches, else -1. -/
def scanFirst (s1 ss : List Nat) : List Nat → Int
  | [] => -1
  | p :: rest => if matchesAt s1 ss p then (p : Int) else scanFirst s1 ss rest

/-- Reference implementation of `index` from the spec's words: scan
increasing positions from `fromIndex`, return the first match start or -1
(stated for `fromIndex ≥ 0`). -/
def naiveIndexRef (s1 ss : List Nat) (k : Int) : Int :=
  scanFirst s1 ss (List.range' k.toNat (s1.length + 1 - k.toNat))

/-- Reference implementation of `lastIndex` from the spec's words: scan
decreasing positions starting at `min(fromIndex, length - |needle|)`,
return the first match found or -1. -/
def naiveLastIndexRef (s1 ss : List Nat) (k : Int) : Int :=
  if min k ((s1.length : Int) - (ss.length : Int)) < 0 then -1
  else scanFirst s1 ss
    (List.range' 0 ((min k ((s1.length : Int) - (ss.length : Int))).toNat + 1)).reverse

/-- Whether a surrogate pair starts at position `pos` (spec-side, for the
strict-reader characterization). -/
def surrogatePairAt (s : List Nat) (pos : Nat) : Bool :=
  isUTF16FirstSurrogate (s.getD pos 0) &&
    (match s[pos + 1]? with
     | some v => isUTF16SecondSurrogate v
     | none => false)

/-- The claim's notion of a lone surrogate at the read position: a leading
surrogate not immediately followed by a trailing surrogate, or a trailing
surrogate. -/
def loneSurrogateAt (s : List Nat) (pos : Nat) : Bool :=
  (isUTF16FirstSurrogate (s.getD pos 0) && !surrogatePairAt s pos) ||
    isUTF16SecondSurrogate (s.getD pos 0)

/-- The decoded code point at a position: the combined pair when one starts
there, else the unit itself. -/
def decodedPointAt (s : List Nat) (pos : Nat) : Nat :=
  if surrogatePairAt s pos then
    utf16DecodeRunePair (s.getD pos 0) (s.getD (pos + 1) 0)
  else s.getD pos 0

/-- Concatenating the constituent UTF-16 units of a code-point sequence. -/
def encodeAllUnits (l : List Nat) : List Nat :=
  l.foldr (fun cp acc => encodeUnits cp ++ acc) []

/-- The claim's condition for the final-sigma post-correction at position
`j` of the default-lowercased sequence `r`: `r[j]` is U+03C2, `r[j-1]` is
U+0345, and the code point preceding the U+0345 is absent or not U+03B1. -/
def sigmaCond (r : List Nat) (j : Nat) : Bool :=
  match j with
  | 0 => false
  | 1 => decide (r[0]? = some 0x345) && decide (r[1]? = some 0x3c2)
  | j + 2 =>
    decide (r[j + 1]? = some 0x345) && decide (r[j + 2]? = some 0x3c2) &&
      decide (r[j]? ≠ some 0x3b1)

/-! ### Helper lemmas -/

theorem utf16Drain_eq (l : List Nat) : utf16Drain l = l := by
  induction l with
  | nil =>
    rw [utf16Drain]
    simp [utf16ReaderRead]
  | cons u rest ih =>
    rw [utf16Drain]
    simpa [utf16ReaderRead] using ih

/-! ### C3: lenient decode round-trip -/

theorem encodeAllUnits_cons (x : Nat) (l : List Nat) :
    encodeAllUnits (x :: l) = encodeUnits x ++ encodeAllUnits l := rfl

theorem encodeUnits_bmp {u : Nat} (h : u ≤ 0xFFFF) : encodeUnits u = [u] := by
  simp [encodeUnits, h]

/-- Re-encoding the code point combined from a surrogate pair yields back
exactly the two original units. -/
theorem encodeUnits_decodePair {u v : Nat}
    (hu : isUTF16FirstSurrogate u = true) (hv : isUTF16SecondSurrogate v = true) :
    encodeUnits (utf16DecodeRunePair u v) = [u, v] := by
  have hu' : 0xD800 ≤ u ∧ u ≤ 0xDBFF := by
    simpa [isUTF16FirstSurrogate] using hu
  have hv' : 0xDC00 ≤ v ∧ v ≤ 0xDFFF := by
    simpa [isUTF16SecondSurrogate] using hv
  obtain ⟨hu1, hu2⟩ := hu'
  obtain ⟨hv1, hv2⟩ := hv'
  have hif : (isUTF16FirstSurrogate u && isUTF16SecondSurrogate v) = true := by
    rw [hu, hv]
    rfl
  simp only [utf16DecodeRunePair, hif, if_true]
  have h1 : ¬ ((u - 0xD800) * 0x400 + (v - 0xDC00) + 0x10000 ≤ 0xFFFF) := by omega
  have hr : (decide (0x10000 ≤ (u - 0xD800) * 0x400 + (v - 0xDC00) + 0x10000) &&
      decide ((u - 0xD800) * 0x400 + (v - 0xDC00) + 0x10000 ≤ 0x10FFFF)) = true := by
    simp only [Bool.and_eq_true, decide_eq_true_eq]
    omega
  simp only [encodeUnits, h1, if_false, utf16EncodeRunePair, hr, if_true]
  simp only [List.cons.injEq, and_true]
  constructor
  · omega
  · omega

/-- Taking the pending unit first is the same as pushing it back onto the
input. -/
theorem lenientDrain_pending (p : Nat) (rest : List Nat) :
    lenientDrain ⟨some p, rest⟩ = lenientDrain ⟨none, p :: rest⟩ := by
  conv_lhs => rw [lenientDrain]
  conv_rhs => rw [lenientDrain]
  rfl

theorem lenientDrain_eof {st : LenientState} (h : lenientRead st = none) :
    lenientDrain st = [] := by
  rw [lenientDrain]
  split
  · rfl
  next r2 st2 heq =>
    rw [h] at heq
    simp at heq

theorem lenientDrain_step {st st' : LenientState} {r : Nat}
    (h : lenientRead st = some (r, st')) :
    lenientDrain st = r :: lenientDrain st' := by
  rw [lenientDrain]
  split
  next heq =>
    rw [h] at heq
    simp at heq
  next r2 st2 heq =>
    rw [h] at heq
    rw [Option.some.injEq, Prod.mk.injEq] at heq
    obtain ⟨h1, h2⟩ := heq
    rw [h1, h2]

theorem lenientDrain_nil : lenientDrain ⟨none, []⟩ = [] :=
  lenientDrain_eof rfl

/-- No unit is dropped or duplicated: re-encoding every code point the
lenient decoder emits reproduces the input unit list. -/
theorem lenientDrain_none_roundtrip :
    ∀ (n : Nat) (rest : List Nat), rest.length ≤ n → (∀ u ∈ rest, u < 0x10000) →
      encodeAllUnits (lenientDrain ⟨none, rest⟩) = rest := by
  intro n
  induction n with
  | zero =>
    intro rest hlen _
    have : rest = [] := List.length_eq_zero.mp (Nat.le_zero.mp hlen)
    subst this
    rw [lenientDrain_nil]
    rfl
  | succ n ih =>
    intro rest hlen hu
    match rest with
    | [] =>
      rw [lenientDrain_nil]
      rfl
    | u :: rest1 =>
      have hu0 : u < 0x10000 := hu u (by simp)
      by_cases hf : isUTF16FirstSurrogate u = true
      · match rest1 with
        | [] =>
          have hread : lenientRead ⟨none, [u]⟩ = some (u, ⟨none, []⟩) := by
            simp [lenientRead]
          rw [lenientDrain_step hread, lenientDrain_nil, encodeAllUnits_cons,
            encodeUnits_bmp (by omega)]
          rfl
        | v :: rest2 =>
          by_cases hv : isUTF16SecondSurrogate v = true
          · have hread : lenientRead ⟨none, u :: v :: rest2⟩ =
                some (utf16DecodeRunePair u v, ⟨none, rest2⟩) := by
              simp [lenientRead, hf, hv]
            rw [lenientDrain_step hread, encodeAllUnits_cons, encodeUnits_decodePair hf hv]
            have := ih rest2 (by simp at hlen ⊢; omega)
              (fun x hx => hu x (by simp [hx]))
            rw [this]
            rfl
          · have hread : lenientRead ⟨none, u :: v :: rest2⟩ =
                some (u, ⟨some v, rest2⟩) := by
              simp [lenientRead, hf, hv]
            rw [lenientDrain_step hread, lenientDrain_pending, encodeAllUnits_cons,
              encodeUnits_bmp (by omega)]
            have := ih (v :: rest2) (by simp at hlen ⊢; omega)
              (fun x hx => hu x (by simp at hx ⊢; tauto))
            rw [this]
            rfl
      · have hread : lenientRead ⟨none, u :: rest1⟩ = some (u, ⟨none, rest1⟩) := by
          simp [lenientRead, hf]
        rw [lenientDrain_step hread, encodeAllUnits_cons, encodeUnits_bmp (by omega)]
        have := ih rest1 (by simp at hlen ⊢; omega)
          (fun x hx => hu x (by simp [hx]))
        rw [this]
        rfl

/-- C3: for every unit sequence — dangling leading/trailing surrogates
anywhere, including at the very end — draining the lenient decoder and
re-encoding each emitted code point to its UTF-16 units reproduces the
input exactly. -/
theorem C3_lenient_roundtrip (units : List Nat) (h : ∀ u ∈ units, u < 0x10000) :
    encodeAllUnits (lenientDrain ⟨none, units⟩) = units :=
  lenientDrain_none_roundtrip units.length units le_rfl h

/-- C3 witness: a mix of a paired surrogate, a lone trailing surrogate, and
a dangling leading surrogate at the very end. -/
theorem C3_witness :
    (∀ u ∈ [0x61, 0xD800, 0xDC00, 0xDC01, 0x62, 0xD801], u < 0x10000) ∧
      encodeAllUnits (lenientDrain ⟨none, [0x61, 0xD800, 0xDC00, 0xDC01, 0x62, 0xD801]⟩) =
        [0x61, 0xD800, 0xDC00, 0xDC01, 0x62, 0xD801] :=
  ⟨by decide, C3_lenient_roundtrip _ (by decide)⟩

/-! ### C8: totality of case conversion -/

theorem utf16DecodeList_ne_nil {l : List Nat} (h : l ≠ []) : utf16DecodeList l ≠ [] := by
  match l with
  | [] => exact absurd rfl h
  | u :: [] =>
    simp only [utf16DecodeList]
    split
    · simp
    · split <;> simp
  | u :: v :: rest2 =>
    simp only [utf16DecodeList]
    split
    · split <;> simp
    · split <;> simp

/-- C8 counterexample: `toLower` on the (degenerate) wide value with empty
logical content faults — the code indexes `r[len(r)-1]` with `r` empty. -/
theorem C8_counterexample : toLower [BOM] = none := rfl

/-- C8 (amended): on every wide value with nonempty logical content,
`toLower` returns a string value without fault.  (`toUpper` has no fault
path at all: it is embedded as the total function `toUpperWith`.) -/
theorem C8_case_total (w : List Nat) (h : w.drop 1 ≠ []) :
    (toLower w).isSome = true := by
  have h1 : utf16DecodeList (w.drop 1) ≠ [] := utf16DecodeList_ne_nil h
  unfold toLower defaultLower
  match h2 : utf16DecodeList (w.drop 1) with
  | [] => exact absurd h2 h1
  | x :: r => simp

/-- C8 witness. -/
theorem C8_witness : (toLower [BOM, 0x41, 0x100]).isSome = true :=
  C8_case_total [BOM, 0x41, 0x100] (by decide)

/-! ### C6: final-sigma post-correction -/

/-- The claim's rewrite condition relative to an explicit predecessor of the
list's first element (`prev`), for the inductive characterization of
`lowerSigmaScan`. -/
def sigmaCondP (prev : Option Nat) (l : List Nat) (j : Nat) : Bool :=
  match j with
  | 0 => false
  | 1 =>
    decide (l[0]? = some 0x345) && decide (l[1]? = some 0x3c2) &&
      (match prev with
       | none => true
       | some a => decide (a ≠ 0x3b1))
  | j + 2 =>
    decide (l[j + 1]? = some 0x345) && decide (l[j + 2]? = some 0x3c2) &&
      decide (l[j]? ≠ some 0x3b1)

theorem sigmaCondP_none (r : List Nat) (j : Nat) : sigmaCondP none r j = sigmaCond r j := by
  match j with
  | 0 => rfl
  | 1 => simp [sigmaCondP, sigmaCond]
  | j + 2 => rfl

theorem lowerSigmaScan_char (prev : Option Nat) (l : List Nat) :
    (lowerSigmaScan prev l).1.length = l.length ∧
      ∀ j : Nat, (lowerSigmaScan prev l).1[j]? =
        (if sigmaCondP prev l j then some 0x3c3 else l[j]?) := by
  induction prev, l using lowerSigmaScan.induct with
  | case1 prev =>
    refine ⟨rfl, fun j => ?_⟩
    match j with
    | 0 => rfl
    | 1 => rfl
    | j + 2 => rfl
  | case2 prev x =>
    refine ⟨rfl, fun j => ?_⟩
    match j with
    | 0 => simp [lowerSigmaScan, sigmaCondP]
    | 1 => simp [lowerSigmaScan, sigmaCondP]
    | j + 2 => simp [lowerSigmaScan, sigmaCondP]
  | case3 prev x y rest hc ih =>
    obtain ⟨hprev, hx, hy⟩ := hc
    obtain ⟨ihlen, ihget⟩ := ih
    have hscan0 : lowerSigmaScan prev (x :: y :: rest) =
        (x :: 0x3c3 :: (lowerSigmaScan (some 0x3c3) rest).1, false) := by
      conv_lhs => rw [lowerSigmaScan]
      rw [if_pos ⟨hprev, hx, hy⟩]
    have hscan : (lowerSigmaScan prev (x :: y :: rest)).1 =
        x :: 0x3c3 :: (lowerSigmaScan (some 0x3c3) rest).1 := by
      rw [hscan0]
    constructor
    · rw [hscan]
      simp [ihlen]
    · intro j
      rw [hscan]
      match j with
      | 0 => simp [sigmaCondP]
      | 1 =>
        have hcnd : sigmaCondP prev (x :: y :: rest) 1 = true := by
          subst hx
          subst hy
          simp only [sigmaCondP, List.getElem?_cons_zero, List.getElem?_cons_succ]
          rcases hprev with hp | hp
          · subst hp
            simp
          · cases prev with
            | none => simp
            | some a =>
              have ha : a ≠ 0x3b1 := fun hEq => hp (by rw [hEq])
              simp [ha]
        simp [hcnd]
      | k + 2 =>
        have hcnd : sigmaCondP prev (x :: y :: rest) (k + 2) = sigmaCondP (some 0x3c3) rest k := by
          match k with
          | 0 =>
            subst hy
            simp [sigmaCondP]
          | 1 =>
            subst hy
            simp [sigmaCondP]
          | m + 2 => simp [sigmaCondP]
        simp only [List.getElem?_cons_succ, hcnd]
        exact ihget k
  | case4 prev x y rest hc ih =>
    obtain ⟨ihlen, ihget⟩ := ih
    have hscan0 : lowerSigmaScan prev (x :: y :: rest) =
        (x :: (lowerSigmaScan (some x) (y :: rest)).1,
          decide (x < runeSelf) && (lowerSigmaScan (some x) (y :: rest)).2) := by
      conv_lhs => rw [lowerSigmaScan]
      rw [if_neg hc]
    have hscan : (lowerSigmaScan prev (x :: y :: rest)).1 =
        x :: (lowerSigmaScan (some x) (y :: rest)).1 := by
      rw [hscan0]
    constructor
    · rw [hscan]
      simp [ihlen]
    · intro j
      rw [hscan]
      match j with
      | 0 => simp [sigmaCondP]
      | k + 1 =>
        have hcnd : sigmaCondP prev (x :: y :: rest) (k + 1) = sigmaCondP (some x) (y :: rest) k := by
          match k with
          | 0 =>
            simp only [sigmaCondP, List.getElem?_cons_zero, List.getElem?_cons_succ]
            by_cases hx : x = 0x345
            · by_cases hy : y = 0x3c2
              · have hp : prev = some 0x3b1 := by
                  by_contra hp
                  exact hc ⟨Or.inr hp, hx, hy⟩
                subst hp
                simp
              · simp [hy]
            · simp [hx]
          | 1 => simp [sigmaCondP]
          | m + 2 => simp [sigmaCondP]
        simp only [List.getElem?_cons_succ, hcnd]
        exact ihget k

/-- C6: the post-correction rewrites exactly the positions the claim names
(U+03C2 immediately after U+0345 whose predecessor is absent or not
U+03B1 becomes U+03C3, nothing else changes), and hence lowercasing
alpha/iota-subscript/final-sigma keeps the final sigma while
beta/iota-subscript/final-sigma rewrites it to medial sigma. -/
theorem C6_sigma_correction :
    (∀ r : List Nat, (lowerSigmaScan none r).1.length = r.length ∧
        ∀ j : Nat, (lowerSigmaScan none r).1[j]? =
          (if sigmaCond r j then some 0x3c3 else r[j]?)) ∧
      toLower [BOM, 0x3b1, 0x345, 0x3c2] = some (.unicodeStr [BOM, 0x3b1, 0x345, 0x3c2]) ∧
      toLower [BOM, 0x3b2, 0x345, 0x3c2] = some (.unicodeStr [BOM, 0x3b2, 0x345, 0x3c3]) := by
  refine ⟨fun r => ?_, by decide, by decide⟩
  obtain ⟨hlen, hget⟩ := lowerSigmaScan_char none r
  refine ⟨hlen, fun j => ?_⟩
  rw [hget j, sigmaCondP_none]

/-! ### C1: representation invariant of the public constructors -/

theorem ensureStarted_ne_nil (buf : List Nat) : ensureStarted buf ≠ [] := by
  unfold ensureStarted
  split
  · simp
  next h => exact h

theorem ensureStarted_eq {buf : List Nat} (h : buf ≠ []) : ensureStarted buf = buf := by
  unfold ensureStarted
  rw [if_neg h]

theorem drop_one_append {a : List Nat} (z : List Nat) (h : a ≠ []) :
    (a ++ z).drop 1 = a.drop 1 ++ z := by
  cases a with
  | nil => exact absurd rfl h
  | cons x t => simp

theorem encodePair_fst_ge (r : Nat) : runeSelf ≤ (utf16EncodeRunePair r).1 := by
  rw [utf16EncodeRunePair]
  split
  · simp only [runeSelf]
    omega
  · norm_num [runeSelf]

/-- The builder invariant maintained across public writes: the compact tier
holds only ASCII, a nonempty wide buffer implies the unicode flag, and the
unicode flag implies a logical unit ≥ 0x80 in the wide buffer. -/
def BuilderInv (b : Builder) : Prop :=
  (∀ u ∈ b.asciiBuf, u < runeSelf) ∧
    (b.buf ≠ [] → b.unicode = true) ∧
    (b.unicode = true → ∃ u ∈ b.buf.drop 1, runeSelf ≤ u)

theorem builderInv_empty : BuilderInv Builder.empty := by
  refine ⟨by simp [Builder.empty], by simp [Builder.empty], by simp [Builder.empty]⟩

theorem switchToUnicode_asciiBuf {b : Builder} (h1 : ∀ u ∈ b.asciiBuf, u < runeSelf) :
    ∀ u ∈ b.switchToUnicode.asciiBuf, u < runeSelf := by
  unfold Builder.switchToUnicode
  split
  · simp
  · exact h1

theorem switchToUnicode_buf_ne_nil (b : Builder) : b.switchToUnicode.buf ≠ [] := by
  unfold Builder.switchToUnicode
  split
  next h =>
    show ubWriteASCIIString b.buf b.asciiBuf ≠ []
    rw [ubWriteASCIIString]
    intro hc
    exact ensureStarted_ne_nil b.buf (List.append_eq_nil.mp hc).1
  next h => simpa [Builder.isAsciiTier] using h

theorem builderInv_applyOp {b : Builder} {op : BuilderOp}
    (hb : BuilderInv b) (hop : OpValid op) : BuilderInv (applyOp b op) := by
  obtain ⟨h1, h2, h3⟩ := hb
  cases op with
  | writeStr v =>
    cases v with
    | asciiStr bs =>
      simp only [applyOp, Builder.writeString]
      by_cases ht : b.isAsciiTier = true
      · rw [if_pos ht]
        refine ⟨?_, h2, h3⟩
        intro u hu
        rcases List.mem_append.mp hu with h | h
        · exact h1 u h
        · exact hop u h
      · rw [if_neg ht]
        have hbuf : b.buf ≠ [] := by simpa [Builder.isAsciiTier] using ht
        refine ⟨h1, fun _ => h2 hbuf, ?_⟩
        intro hu
        obtain ⟨u, hu1, hu2⟩ := h3 hu
        refine ⟨u, ?_, hu2⟩
        show u ∈ (ubWriteASCIIString b.buf bs).drop 1
        rw [ubWriteASCIIString, ensureStarted_eq hbuf, drop_one_append bs hbuf]
        exact List.mem_append.mpr (Or.inl hu1)
    | unicodeStr w =>
      obtain ⟨u, hu1, hu2⟩ := hop
      simp only [applyOp, Builder.writeString, ubWriteString]
      refine ⟨switchToUnicode_asciiBuf h1, fun _ => rfl, fun _ => ⟨u, ?_, hu2⟩⟩
      rw [drop_one_append (w.drop 1) (ensureStarted_ne_nil _)]
      exact List.mem_append.mpr (Or.inr hu1)
  | writeASCII bs =>
    simp only [applyOp, Builder.writeASCII]
    by_cases ht : b.isAsciiTier = true
    · rw [if_pos ht]
      refine ⟨?_, h2, h3⟩
      intro u hu
      rcases List.mem_append.mp hu with h | h
      · exact h1 u h
      · exact hop u h
    · rw [if_neg ht]
      have hbuf : b.buf ≠ [] := by simpa [Builder.isAsciiTier] using ht
      refine ⟨h1, fun _ => h2 hbuf, ?_⟩
      intro hu
      obtain ⟨u, hu1, hu2⟩ := h3 hu
      refine ⟨u, ?_, hu2⟩
      show u ∈ (ubWriteASCIIString b.buf bs).drop 1
      rw [ubWriteASCIIString, ensureStarted_eq hbuf, drop_one_append bs hbuf]
      exact List.mem_append.mpr (Or.inl hu1)
  | writeRune r =>
    simp only [applyOp, Builder.writeRune]
    by_cases hr : r < runeSelf
    · rw [if_pos hr]
      by_cases ht : b.isAsciiTier = true
      · rw [if_pos ht]
        refine ⟨?_, h2, h3⟩
        intro u hu
        rcases List.mem_append.mp hu with h | h
        · exact h1 u h
        · simp at h
          omega
      · rw [if_neg ht]
        have hbuf : b.buf ≠ [] := by simpa [Builder.isAsciiTier] using ht
        have hun := h2 hbuf
        simp only [ubWriteRune]
        rw [if_pos (show r ≤ 0xFFFF from by
          have hrs : runeSelf = 0x80 := rfl
          omega)]
        refine ⟨h1, fun _ => by rw [hun, Bool.true_or], ?_⟩
        intro _
        obtain ⟨u, hu1, hu2⟩ := h3 hun
        refine ⟨u, ?_, hu2⟩
        rw [ensureStarted_eq hbuf, drop_one_append [r] hbuf]
        exact List.mem_append.mpr (Or.inl hu1)
    · rw [if_neg hr]
      simp only [ubWriteRune]
      by_cases hbmp : r ≤ 0xFFFF
      · rw [if_pos hbmp]
        refine ⟨switchToUnicode_asciiBuf h1, ?_, ?_⟩
        · intro _
          have : decide (runeSelf ≤ r) = true := by
            simp only [decide_eq_true_eq]
            omega
          rw [this, Bool.or_true]
        · intro _
          refine ⟨r, ?_, by omega⟩
          rw [drop_one_append [r] (ensureStarted_ne_nil _)]
          exact List.mem_append.mpr (Or.inr (by simp))
      · rw [if_neg hbmp]
        refine ⟨switchToUnicode_asciiBuf h1, fun _ => rfl, ?_⟩
        intro _
        refine ⟨(utf16EncodeRunePair r).1, ?_, encodePair_fst_ge r⟩
        rw [drop_one_append _ (ensureStarted_ne_nil _)]
        exact List.mem_append.mpr (Or.inr (by simp))
  | writeSub v start stop =>
    cases v with
    | asciiStr bs =>
      have hval : ∀ u ∈ bs, u < runeSelf := hop.1
      have hslice : ∀ u ∈ (bs.drop start).take (stop - start), u < runeSelf :=
        fun u hu => hval u (List.mem_of_mem_drop (List.mem_of_mem_take hu))
      simp only [applyOp, Builder.writeSubstring]
      by_cases ht : b.isAsciiTier = true
      · rw [if_pos ht]
        refine ⟨?_, h2, h3⟩
        intro u hu
        rcases List.mem_append.mp hu with h | h
        · exact h1 u h
        · exact hslice u h
      · rw [if_neg ht]
        have hbuf : b.buf ≠ [] := by simpa [Builder.isAsciiTier] using ht
        refine ⟨h1, fun _ => h2 hbuf, ?_⟩
        intro hu
        obtain ⟨u, hu1, hu2⟩ := h3 hu
        refine ⟨u, ?_, hu2⟩
        show u ∈ (ubWriteASCIIString b.buf _).drop 1
        rw [ubWriteASCIIString, ensureStarted_eq hbuf, drop_one_append _ hbuf]
        exact List.mem_append.mpr (Or.inl hu1)
    | unicodeStr w =>
      simp only [applyOp, Builder.writeSubstring]
      by_cases ht : b.isAsciiTier = true
      · rw [if_pos ht]
        cases huc : ((w.drop (start + 1)).take (stop - start)).any
            (fun c => decide (runeSelf ≤ c)) with
        | true =>
          obtain ⟨u, hu1, hu2⟩ : ∃ u ∈ (w.drop (start + 1)).take (stop - start),
              runeSelf ≤ u := by simpa using huc
          rw [if_pos rfl]
          refine ⟨switchToUnicode_asciiBuf h1, fun _ => rfl, fun _ => ⟨u, ?_, hu2⟩⟩
          rw [drop_one_append _ (switchToUnicode_buf_ne_nil b)]
          exact List.mem_append.mpr (Or.inr hu1)
        | false =>
          rw [if_neg (by simp)]
          have hall : ∀ u ∈ (w.drop (start + 1)).take (stop - start), u < runeSelf := by
            intro u hu
            by_contra hlt
            have : ((w.drop (start + 1)).take (stop - start)).any
                (fun c => decide (runeSelf ≤ c)) = true :=
              List.any_eq_true.mpr ⟨u, hu, by simpa using hlt⟩
            rw [huc] at this
            exact absurd this (by simp)
          refine ⟨?_, h2, h3⟩
          intro u hu
          rcases List.mem_append.mp hu with h | h
          · exact h1 u h
          · obtain ⟨c, hc1, hc2⟩ := List.mem_map.mp h
            have := hall c hc1
            omega
      · rw [if_neg ht]
        have hbuf : b.buf ≠ [] := by simpa [Builder.isAsciiTier] using ht
        have hun := h2 hbuf
        refine ⟨h1, fun _ => rfl, ?_⟩
        intro _
        obtain ⟨u, hu1, hu2⟩ := h3 hun
        refine ⟨u, ?_, hu2⟩
        rw [drop_one_append _ hbuf]
        exact List.mem_append.mpr (Or.inl hu1)

theorem builderInv_foldl : ∀ (ops : List BuilderOp) (b : Builder), BuilderInv b →
    (∀ op ∈ ops, OpValid op) → BuilderInv (ops.foldl applyOp b) := by
  intro ops
  induction ops with
  | nil =>
    intro b hb _
    simpa using hb
  | cons op rest ih =>
    intro b hb h
    simp only [List.foldl_cons]
    exact ih (applyOp b op) (builderInv_applyOp hb (h op (by simp)))
      (fun o ho => h o (by simp [ho]))

theorem finalize_compactIff {b : Builder} (hb : BuilderInv b) :
    (b.finalize.isCompact = true ↔ ∀ u ∈ b.finalize.logicalUnits, u < runeSelf) := by
  obtain ⟨h1, h2, h3⟩ := hb
  unfold Builder.finalize
  by_cases ht : b.isAsciiTier = true
  · rw [if_pos ht]
    simp only [ValueString.isCompact, ValueString.logicalUnits]
    exact ⟨fun _ => h1, fun _ => trivial⟩
  · rw [if_neg ht]
    have hbuf : b.buf ≠ [] := by simpa [Builder.isAsciiTier] using ht
    have hun : b.unicode = true := h2 hbuf
    rw [ubString, if_pos hun]
    simp only [ValueString.isCompact, ValueString.logicalUnits]
    obtain ⟨u, hu1, hu2⟩ := h3 hun
    constructor
    · intro hcon
      exact absurd hcon (by simp)
    · intro hall
      exact absurd (hall u hu1) (by omega)

theorem uSubstring_compactIff (w : List Nat) (start stop : Nat) :
    ((uSubstring w start stop).isCompact = true ↔
      ∀ u ∈ (uSubstring w start stop).logicalUnits, u < runeSelf) := by
  cases hc : ((w.drop (start + 1)).take (stop - start)).any (fun c => decide (runeSelf ≤ c)) with
  | true =>
    obtain ⟨u, hu1, hu2⟩ : ∃ u ∈ (w.drop (start + 1)).take (stop - start), runeSelf ≤ u := by
      simpa using hc
    simp only [uSubstring, hc, if_true, ValueString.isCompact, ValueString.logicalUnits]
    constructor
    · intro hcon
      exact absurd hcon (by simp)
    · intro hall
      exact absurd (hall u (by simpa using hu1)) (by omega)
  | false =>
    simp only [uSubstring, hc, Bool.false_eq_true, if_false, ValueString.isCompact,
      ValueString.logicalUnits]
    have hall : ∀ u ∈ (w.drop (start + 1)).take (stop - start), u < runeSelf := by
      intro u hu
      by_contra hlt
      have : ((w.drop (start + 1)).take (stop - start)).any (fun c => decide (runeSelf ≤ c)) = true :=
        List.any_eq_true.mpr ⟨u, hu, by simpa using hlt⟩
      rw [hc] at this
      exact absurd this (by simp)
    refine ⟨fun _ u hu => ?_, fun _ => trivial⟩
    obtain ⟨c, hc1, hc2⟩ := List.mem_map.mp hu
    have := hall c hc1
    omega

theorem uConcat_compactIff (w : List Nat) (other : ValueString)
    (hw : ValueInv (.unicodeStr w)) :
    ((uConcat w other).isCompact = true ↔
      ∀ u ∈ (uConcat w other).logicalUnits, u < runeSelf) := by
  obtain ⟨u, hu1, hu2⟩ := hw
  have humem : u ∈ w := List.mem_of_mem_drop hu1
  have hwne : w ≠ [] := List.ne_nil_of_mem humem
  have humem1 : ∀ z : List Nat, u ∈ (w ++ z).drop 1 := by
    intro z
    rw [drop_one_append z hwne]
    exact List.mem_append.mpr (Or.inl hu1)
  cases other with
  | unicodeStr w2 =>
    simp only [uConcat, ValueString.isCompact, ValueString.logicalUnits]
    constructor
    · intro hcon
      exact absurd hcon (by simp)
    · intro hall
      exact absurd (hall u (humem1 _)) (by omega)
  | asciiStr bs =>
    simp only [uConcat, ValueString.isCompact, ValueString.logicalUnits]
    constructor
    · intro hcon
      exact absurd hcon (by simp)
    · intro hall
      exact absurd (hall u (humem1 _)) (by omega)

/-- C1: every value produced by a public constructor — builder finalization
over any sequence of valid writes, substring with in-bounds arguments, and
concatenation of invariant-satisfying operands — is compact iff every code
unit of its logical content is < 0x80. -/
theorem C1_representation_invariant :
    (∀ ops : List BuilderOp, (∀ op ∈ ops, OpValid op) →
        ((buildAll ops).finalize.isCompact = true ↔
          ∀ u ∈ (buildAll ops).finalize.logicalUnits, u < runeSelf)) ∧
      (∀ (w : List Nat) (start stop : Nat), start ≤ stop → stop ≤ uLength w →
        ((uSubstring w start stop).isCompact = true ↔
          ∀ u ∈ (uSubstring w start stop).logicalUnits, u < runeSelf)) ∧
      (∀ (w : List Nat) (other : ValueString),
        ValueInv (.unicodeStr w) → ValueInv other →
        ((uConcat w other).isCompact = true ↔
          ∀ u ∈ (uConcat w other).logicalUnits, u < runeSelf)) := by
  refine ⟨?_, ?_, ?_⟩
  · intro ops h
    exact finalize_compactIff (builderInv_foldl ops Builder.empty builderInv_empty h)
  · intro w start stop _ _
    exact uSubstring_compactIff w start stop
  · intro w other hw _
    exact uConcat_compactIff w other hw

/-- C1 witness: an ascii write, a non-ASCII rune, and a wide substring write
drive the builder into the wide tier; the finalized value, an in-bounds
substring and a concatenation each satisfy the compact-iff-ASCII invariant. -/
theorem C1_witness :
    ((buildAll [.writeASCII [0x61], .writeRune 0x100,
        .writeSub (.unicodeStr [BOM, 0x41, 0x3b1]) 0 2]).finalize.isCompact = true ↔
      ∀ u ∈ (buildAll [.writeASCII [0x61], .writeRune 0x100,
        .writeSub (.unicodeStr [BOM, 0x41, 0x3b1]) 0 2]).finalize.logicalUnits, u < runeSelf) ∧
      ((uSubstring [BOM, 0x100, 0x61] 1 2).isCompact = true ↔
        ∀ u ∈ (uSubstring [BOM, 0x100, 0x61] 1 2).logicalUnits, u < runeSelf) ∧
      ((uConcat [BOM, 0x100] (.asciiStr [0x61])).isCompact = true ↔
        ∀ u ∈ (uConcat [BOM, 0x100] (.asciiStr [0x61])).logicalUnits, u < runeSelf) :=
  ⟨C1_representation_invariant.1 [.writeASCII [0x61], .writeRune 0x100,
      .writeSub (.unicodeStr [BOM, 0x41, 0x3b1]) 0 2]
      (by
        intro op hop
        simp only [List.mem_cons, List.mem_singleton] at hop
        rcases hop with h | h | h | h
        · subst h
          intro u hu
          simp at hu
          subst hu
          norm_num [runeSelf]
        · subst h
          trivial
        · subst h
          refine ⟨⟨0x3b1, by simp, by norm_num [runeSelf]⟩, by norm_num, by norm_num [ValueString.lengthV]⟩
        · exact absurd h (by simp)),
    C1_representation_invariant.2.1 [BOM, 0x100, 0x61] 1 2 (by norm_num) (by norm_num [uLength]),
    C1_representation_invariant.2.2 [BOM, 0x100] (.asciiStr [0x61])
      ⟨0x100, by simp, by norm_num [runeSelf]⟩
      (by
        intro u hu
        simp at hu
        subst hu
        norm_num [runeSelf])⟩

/-! ### C4 / C10: substring search -/

theorem matchesAt_le {s1 ss : List Nat} {p : Nat} (h : matchesAt s1 ss p = true) :
    ss.length ≤ s1.length - p := by
  simp only [matchesAt, decide_eq_true_eq] at h
  have hl := congrArg List.length h
  simp only [List.length_take, List.length_drop] at hl
  omega

theorem scanFirst_all_false {s1 ss : List Nat} :
    ∀ {ps : List Nat}, (∀ p ∈ ps, matchesAt s1 ss p = false) → scanFirst s1 ss ps = -1 := by
  intro ps
  induction ps with
  | nil => intro _; rfl
  | cons p rest ih =>
    intro h
    have hp := h p (by simp)
    simp only [scanFirst]
    rw [hp, if_neg (by simp)]
    exact ih (fun q hq => h q (by simp [hq]))

theorem scanFirst_result {s1 ss : List Nat} :
    ∀ (ps : List Nat), scanFirst s1 ss ps = -1 ∨
      ∃ p ∈ ps, scanFirst s1 ss ps = (p : Int) ∧ matchesAt s1 ss p = true := by
  intro ps
  induction ps with
  | nil => exact Or.inl rfl
  | cons p rest ih =>
    simp only [scanFirst]
    cases hm : matchesAt s1 ss p with
    | true =>
      rw [if_pos rfl]
      exact Or.inr ⟨p, by simp, rfl, hm⟩
    | false =>
      rw [if_neg (by simp)]
      rcases ih with h | ⟨q, hq, hval, hmt⟩
      · exact Or.inl h
      · exact Or.inr ⟨q, by simp [hq], hval, hmt⟩

theorem matchFrom_eq (s1 : List Nat) (start : Int) (hstart : 0 ≤ start) :
    ∀ (cs : List Nat) (i : Nat), start.toNat + i + cs.length ≤ s1.length →
      matchFrom s1 start cs (i : Int) =
        some (decide ((s1.drop (start.toNat + i)).take cs.length = cs)) := by
  intro cs
  induction cs with
  | nil =>
    intro i _
    simp [matchFrom]
  | cons c cs ih =>
    intro i h
    have hlen1 : (c :: cs).length = cs.length + 1 := rfl
    rw [hlen1] at h
    have hlt : start.toNat + i < s1.length := by omega
    have hnn : ¬ (start + (i : Int) < 0) := by omega
    have htn : (start + (i : Int)).toNat = start.toNat + i := by omega
    have hget : getAtI s1 (start + (i : Int)) = some s1[start.toNat + i] := by
      rw [getAtI, if_neg hnn, htn]
      exact List.getElem?_eq_getElem hlt
    have hdrop : s1.drop (start.toNat + i) = s1[start.toNat + i] :: s1.drop (start.toNat + i + 1) :=
      List.drop_eq_getElem_cons hlt
    simp only [matchFrom, hget]
    by_cases hc : s1[start.toNat + i] = c
    · rw [if_neg (by simpa using hc)]
      have hrec := ih (i + 1) (by omega)
      have hcast : ((i + 1 : Nat) : Int) = (i : Int) + 1 := by push_cast; ring
      rw [hcast] at hrec
      have hplus : start.toNat + (i + 1) = start.toNat + i + 1 := by omega
      rw [hplus] at hrec
      rw [hrec, hdrop, hlen1, List.take_succ_cons]
      congr 1
      rw [decide_eq_decide]
      subst hc
      simp
    · rw [if_pos (by simpa using hc)]
      rw [hdrop, hlen1, List.take_succ_cons]
      congr 1
      have : ¬ (s1[start.toNat + i] :: (s1.drop (start.toNat + i + 1)).take cs.length = c :: cs) := by
        simp [hc]
      simp [this]

theorem indexLoop_eq (s1 ss : List Nat) :
    ∀ (n : Nat) (start : Int), 0 ≤ start → s1.length + 1 - start.toNat ≤ n →
      indexLoop s1 ss ((s1.length : Int) - (ss.length : Int)) start =
        some (scanFirst s1 ss (List.range' start.toNat (s1.length + 1 - start.toNat))) := by
  intro n
  induction n with
  | zero =>
    intro start h0 hn
    have hcnt : s1.length + 1 - start.toNat = 0 := by omega
    have hgt : ¬ (start ≤ (s1.length : Int) - (ss.length : Int)) := by omega
    rw [indexLoop, dif_neg hgt, hcnt]
    rfl
  | succ n ih =>
    intro start h0 hn
    by_cases hle : start ≤ (s1.length : Int) - (ss.length : Int)
    · have hsl : start.toNat + 0 + ss.length ≤ s1.length := by omega
      have hmf := matchFrom_eq s1 start h0 ss 0 hsl
      rw [Nat.add_zero] at hmf
      rw [Nat.cast_zero] at hmf
      have hcnt : s1.length + 1 - start.toNat = (s1.length - start.toNat) + 1 := by omega
      rw [hcnt, List.range'_succ]
      cases hm : matchesAt s1 ss start.toNat with
      | true =>
        rw [show decide ((s1.drop start.toNat).take ss.length = ss) = true from hm] at hmf
        rw [indexLoop, dif_pos hle]
        simp only [hmf]
        simp only [scanFirst]
        rw [hm, if_pos rfl]
        congr 1
        omega
      | false =>
        rw [show decide ((s1.drop start.toNat).take ss.length = ss) = false from hm] at hmf
        rw [indexLoop, dif_pos hle]
        simp only [hmf]
        rw [ih (start + 1) (by omega) (by omega)]
        simp only [scanFirst]
        rw [hm, if_neg (by simp)]
        have h1 : (start + 1).toNat = start.toNat + 1 := by omega
        have h2 : s1.length + 1 - (start.toNat + 1) = s1.length - start.toNat := by omega
        rw [h1, h2]
    · rw [indexLoop, dif_neg hle]
      have hall : scanFirst s1 ss (List.range' start.toNat (s1.length + 1 - start.toNat)) = -1 := by
        apply scanFirst_all_false
        intro p hp
        rw [List.mem_range'_1] at hp
        cases hmatch : matchesAt s1 ss p with
        | false => rfl
        | true =>
          exfalso
          have hml := matchesAt_le hmatch
          omega
      rw [hall]

theorem lastIndexLoop_eq (s1 ss : List Nat) :
    ∀ (n : Nat) (start : Int), start ≤ (s1.length : Int) - (ss.length : Int) →
      (start + 1).toNat ≤ n →
      lastIndexLoop s1 ss start =
        some (if start < 0 then -1
          else scanFirst s1 ss (List.range' 0 (start.toNat + 1)).reverse) := by
  intro n
  induction n with
  | zero =>
    intro start hle hn
    have hneg : start < 0 := by omega
    rw [lastIndexLoop, dif_neg (by omega), if_pos hneg]
  | succ n ih =>
    intro start hle hn
    by_cases h0 : 0 ≤ start
    · have hsl : start.toNat + 0 + ss.length ≤ s1.length := by omega
      have hmf := matchFrom_eq s1 start h0 ss 0 hsl
      rw [Nat.add_zero] at hmf
      rw [Nat.cast_zero] at hmf
      have hrev : (List.range' 0 (start.toNat + 1)).reverse =
          start.toNat :: (List.range' 0 start.toNat).reverse := by
        rw [List.range'_1_concat, List.reverse_append]
        simp
      rw [if_neg (by omega), hrev]
      cases hm : matchesAt s1 ss start.toNat with
      | true =>
        rw [show decide ((s1.drop start.toNat).take ss.length = ss) = true from hm] at hmf
        rw [lastIndexLoop, dif_pos h0]
        simp only [hmf]
        simp only [scanFirst]
        rw [hm, if_pos rfl]
        congr 1
        omega
      | false =>
        rw [show decide ((s1.drop start.toNat).take ss.length = ss) = false from hm] at hmf
        rw [lastIndexLoop, dif_pos h0]
        simp only [hmf]
        rw [ih (start - 1) (by omega) (by omega)]
        simp only [scanFirst]
        rw [hm]
        rw [if_neg (show ¬ (false = true) by simp)]
        by_cases hz : start = 0
        · subst hz
          rw [if_pos (show (0 : Int) - 1 < 0 by omega)]
          rfl
        · rw [if_neg (show ¬ (start - 1 < 0) by omega)]
          have h1 : (start - 1).toNat + 1 = start.toNat := by omega
          rw [h1]
    · rw [lastIndexLoop, dif_neg h0, if_pos (by omega)]

/-- The clamped `lastIndex` loop agrees with the reference descending scan. -/
theorem lastIndexGo_eq (s1 ss : List Nat) (k : Int) :
    lastIndexLoop s1 ss
        (if (s1.length : Int) - (ss.length : Int) < k
          then (s1.length : Int) - (ss.length : Int) else k) =
      some (naiveLastIndexRef s1 ss k) := by
  have hstart : (if (s1.length : Int) - (ss.length : Int) < k
      then (s1.length : Int) - (ss.length : Int) else k) ≤
      (s1.length : Int) - (ss.length : Int) := by
    split <;> omega
  rw [lastIndexLoop_eq s1 ss
    ((if (s1.length : Int) - (ss.length : Int) < k
      then (s1.length : Int) - (ss.length : Int) else k) + 1).toNat _ hstart le_rfl]
  have hb : min k ((s1.length : Int) - (ss.length : Int)) =
      (if (s1.length : Int) - (ss.length : Int) < k
        then (s1.length : Int) - (ss.length : Int) else k) := by
    rw [min_def]
    split
    · rw [if_neg (by omega)]
    · rw [if_pos (by omega)]
  unfold naiveLastIndexRef
  rw [hb]

/-- C4 counterexample: with a negative `fromIndex` and a nonempty needle,
`index` reads `s1[start+i]` at a negative position and faults instead of
returning the first match at or after the (effective) start — the naive
reference returns -1 here, the code returns nothing. -/
theorem C4_counterexample :
    uIndex [BOM, 0x100] (.asciiStr [0x61]) (-1) = none ∧
      naiveIndexRef [0x100] [0x61] (-1) = -1 := by
  constructor
  · show indexLoop [0x100] [0x61] (((1 : Nat) : Int) - ((1 : Nat) : Int)) (-1) = none
    rw [indexLoop, dif_pos (by norm_num)]
    norm_num [matchFrom, getAtI]
  · decide

/-- C4 (amended): for `fromIndex ≥ 0`, `index` agrees with the naive
increasing scan from `fromIndex`; for every integer `fromIndex`, `lastIndex`
agrees with the naive descending scan from
`min(fromIndex, length - |needle|)`. -/
theorem C4_search_agrees (s : List Nat) (substr : ValueString) (k : Int) :
    (0 ≤ k → uIndex s substr k = some (naiveIndexRef (s.drop 1) (needleUnits substr) k)) ∧
      uLastIndex s substr k = some (naiveLastIndexRef (s.drop 1) (needleUnits substr) k) := by
  constructor
  · intro hk
    exact indexLoop_eq (s.drop 1) (needleUnits substr) ((s.drop 1).length + 1) k hk (by omega)
  · exact lastIndexGo_eq (s.drop 1) (needleUnits substr) k

/-- C4 witness. -/
theorem C4_witness :
    uIndex [BOM, 0x61, 0x100, 0x61, 0x100] (.asciiStr [0x61]) 2 =
        some (naiveIndexRef ([BOM, 0x61, 0x100, 0x61, 0x100].drop 1)
          (needleUnits (.asciiStr [0x61])) 2) ∧
      uLastIndex [BOM, 0x61, 0x100, 0x61, 0x100] (.asciiStr [0x61]) 2 =
        some (naiveLastIndexRef ([BOM, 0x61, 0x100, 0x61, 0x100].drop 1)
          (needleUnits (.asciiStr [0x61])) 2) :=
  ⟨(C4_search_agrees [BOM, 0x61, 0x100, 0x61, 0x100] (.asciiStr [0x61]) 2).1 (by norm_num),
    (C4_search_agrees [BOM, 0x61, 0x100, 0x61, 0x100] (.asciiStr [0x61]) 2).2⟩

/-- C10: `lastIndex` is total for every integer `fromIndex`: it never
faults, any non-(-1) result is a real match position at or below
`min(fromIndex, length - |needle|)`, and it returns -1 whenever
`fromIndex < 0` or the needle is longer than the haystack. -/
theorem C10_lastIndex_total (s : List Nat) (substr : ValueString) (k : Int) :
    ∃ r : Int, uLastIndex s substr k = some r ∧
      (r = -1 ∨ (0 ≤ r ∧
        r ≤ min k (((s.drop 1).length : Int) - ((needleUnits substr).length : Int)) ∧
        matchesAt (s.drop 1) (needleUnits substr) r.toNat = true)) ∧
      (k < 0 → r = -1) ∧
      (((s.drop 1).length : Int) < ((needleUnits substr).length : Int) → r = -1) := by
  refine ⟨naiveLastIndexRef (s.drop 1) (needleUnits substr) k,
    lastIndexGo_eq (s.drop 1) (needleUnits substr) k, ?_, ?_, ?_⟩
  · unfold naiveLastIndexRef
    split
    · exact Or.inl rfl
    next hb =>
      rcases scanFirst_result ((List.range' 0
          ((min k (((s.drop 1).length : Int) - ((needleUnits substr).length : Int))).toNat + 1)).reverse)
        with h | ⟨p, hp, hval, hmt⟩
      · exact Or.inl h
      · refine Or.inr ⟨by rw [hval]; omega, ?_, ?_⟩
        · rw [hval]
          rw [List.mem_reverse, List.mem_range'_1] at hp
          omega
        · rw [hval]
          simpa using hmt
  · intro hk
    unfold naiveLastIndexRef
    rw [if_pos (by omega)]
  · intro hlen
    unfold naiveLastIndexRef
    rw [if_pos (by omega)]

/-- C10 witness: negative fromIndex and an over-long needle both yield -1
without fault. -/
theorem C10_witness :
    ∃ r : Int, uLastIndex [BOM, 0x100] (.asciiStr [0x61, 0x62, 0x63]) (-5) = some r ∧
      (r = -1 ∨ (0 ≤ r ∧
        r ≤ min (-5) ((([BOM, 0x100].drop 1).length : Int) -
          ((needleUnits (.asciiStr [0x61, 0x62, 0x63])).length : Int)) ∧
        matchesAt ([BOM, 0x100].drop 1) (needleUnits (.asciiStr [0x61, 0x62, 0x63]))
          r.toNat = true)) ∧
      ((-5 : Int) < 0 → r = -1) ∧
      ((([BOM, 0x100].drop 1).length : Int) <
          ((needleUnits (.asciiStr [0x61, 0x62, 0x63])).length : Int) → r = -1) :=
  C10_lastIndex_total [BOM, 0x100] (.asciiStr [0x61, 0x62, 0x63]) (-5)

/-! ### C9: toBoolean -/

/-- C9 counterexample: the claim says a wide value with empty logical
content converts to `false`, but `ToBoolean` tests the physical length, so
the sentinel-only wide value converts to `true` while its length is 0. -/
theorem C9_counterexample :
    ¬ (uToBoolean [BOM] = true ↔ 0 < uLength [BOM]) := by decide

/-- C9 (amended): for every wide value satisfying the representation
invariant (wide values hold a logical unit ≥ 0x80, hence are logically
nonempty), `ToBoolean` returns true iff the logical length is positive. -/
theorem C9_toBoolean (w : List Nat) (h : ValueInv (.unicodeStr w)) :
    (uToBoolean w = true ↔ 0 < uLength w) := by
  obtain ⟨u, hu, -⟩ := h
  have h2 : 0 < (w.drop 1).length := List.length_pos.mpr (List.ne_nil_of_mem hu)
  simp only [List.length_drop] at h2
  simp only [uToBoolean, uLength, decide_eq_true_eq]
  omega

/-- C9 witness. -/
theorem C9_witness :
    uToBoolean [BOM, 0x100] = true ↔ 0 < uLength [BOM, 0x100] :=
  C9_toBoolean [BOM, 0x100] ⟨0x100, by simp, by norm_num [runeSelf]⟩

/-! ### C2: cross-representation observability -/

/-- C2 counterexample: a wide value and a compact value with the same
logical content ("a") are NOT reported equal — `SameAs` (hence `Equals` and
`StrictEquals`) is false whenever the operand is not also wide. -/
theorem C2_counterexample :
    (ValueString.unicodeStr [BOM, 0x61]).logicalUnits =
        (ValueString.asciiStr [0x61]).logicalUnits ∧
      uSameAs [BOM, 0x61] (.asciiStr [0x61]) = false ∧
      uEqualsV [BOM, 0x61] (.asciiStr [0x61]) = false ∧
      uStrictEquals [BOM, 0x61] (.asciiStr [0x61]) = false := by decide

/-- C2 (amended): a compact value and a wide value holding the same logical
unit sequence agree on length, on `charAt` at every in-bounds index and on
iteration order; but `sameAs`/`equals`/`strictEquals` between them return
`false` (representation IS observable to equality for such pairs). -/
theorem C2_cross_representation (b : List Nat) :
    uLength (BOM :: b) = (ValueString.asciiStr b).lengthV ∧
      (∀ i, i < b.length → uCharAt (BOM :: b) i = aCharAt b i) ∧
      utf16Drain ((BOM :: b).drop 1) = b ∧
      uSameAs (BOM :: b) (.asciiStr b) = false ∧
      uEqualsV (BOM :: b) (.asciiStr b) = false ∧
      uStrictEquals (BOM :: b) (.asciiStr b) = false := by
  refine ⟨?_, ?_, ?_, rfl, rfl, rfl⟩
  · simp [uLength, ValueString.lengthV]
  · intro i _
    simp [uCharAt, aCharAt]
  · simpa using utf16Drain_eq b

/-! ### C5: substring -/

/-- C5: for in-bounds `start ≤ end ≤ length`, `substring` holds exactly the
logical code units at positions `[start, end)`, and the result is compact
iff the extracted range holds no unit ≥ 0x80. -/
theorem C5_substring (w : List Nat) (start stop : Nat)
    (h1 : start ≤ stop) (h2 : stop ≤ uLength w) :
    (uSubstring w start stop).logicalUnits = ((w.drop 1).drop start).take (stop - start) ∧
      ((uSubstring w start stop).isCompact = true ↔
        ∀ u ∈ ((w.drop 1).drop start).take (stop - start), u < runeSelf) := by
  have hdd : (w.drop 1).drop start = w.drop (start + 1) := by
    rw [List.drop_drop, Nat.add_comm]
  rw [hdd]
  cases hc : ((w.drop (start + 1)).take (stop - start)).any (fun c => decide (runeSelf ≤ c)) with
  | true =>
    obtain ⟨u, hu, hge⟩ : ∃ u ∈ (w.drop (start + 1)).take (stop - start), runeSelf ≤ u := by
      simpa using hc
    constructor
    · simp [uSubstring, hc, ValueString.logicalUnits]
    · simp only [uSubstring, hc, if_true, ValueString.isCompact]
      constructor
      · intro h
        exact absurd h (by simp)
      · intro hall
        exact absurd (hall u hu) (by omega)
  | false =>
    have hall : ∀ u ∈ (w.drop (start + 1)).take (stop - start), u < runeSelf := by
      intro u hu
      by_contra hlt
      have : ((w.drop (start + 1)).take (stop - start)).any (fun c => decide (runeSelf ≤ c)) = true :=
        List.any_eq_true.mpr ⟨u, hu, by simpa using hlt⟩
      rw [hc] at this
      exact absurd this (by simp)
    have hmap : ((w.drop (start + 1)).take (stop - start)).map (fun c => c % 0x100)
        = (w.drop (start + 1)).take (stop - start) := by
      have h0 : ∀ c ∈ (w.drop (start + 1)).take (stop - start), c % 0x100 = id c := by
        intro c hcmem
        exact Nat.mod_eq_of_lt (lt_trans (hall c hcmem) (by norm_num [runeSelf]))
      rw [List.map_congr_left h0, List.map_id]
    constructor
    · simp [uSubstring, hc, ValueString.logicalUnits, hmap]
    · simp only [uSubstring, hc, ValueString.isCompact]
      simp only [Bool.false_eq_true, if_false, ValueString.isCompact]
      simp only [true_iff]
      exact hall

/-- C5 witness: extracting the all-ASCII slice `[5, 9)` of a wide value
yields a compact value holding exactly those units. -/
theorem C5_witness :
    (uSubstring [BOM, 0x100, 0x101, 0x102, 0x103, 0x104, 0x61, 0x62, 0x63, 0x64, 0x105]
        5 9).logicalUnits =
      ((([BOM, 0x100, 0x101, 0x102, 0x103, 0x104, 0x61, 0x62, 0x63, 0x64, 0x105].drop 1).drop
        5).take (9 - 5)) ∧
      ((uSubstring [BOM, 0x100, 0x101, 0x102, 0x103, 0x104, 0x61, 0x62, 0x63, 0x64, 0x105]
          5 9).isCompact = true ↔
        ∀ u ∈ (([BOM, 0x100, 0x101, 0x102, 0x103, 0x104, 0x61, 0x62, 0x63, 0x64,
            0x105].drop 1).drop 5).take (9 - 5), u < runeSelf) :=
  C5_substring _ 5 9 (by norm_num) (by norm_num [uLength])

/-! ### C7: strict reader error characterization -/

/-- C7: the strict reader errors exactly on a lone surrogate at the read
position; any other in-bounds read returns the decoded code point (pair
combined when one starts there) with the matching unit count; past the end
it reports end-of-input. -/
theorem C7_strict_read (s : List Nat) (pos : Nat) :
    (s.length ≤ pos → strictRead s pos = .eof) ∧
      (pos < s.length →
        ((strictRead s pos = .invalid) ↔ loneSurrogateAt s pos = true) ∧
        (loneSurrogateAt s pos = false →
          strictRead s pos =
            .ok (decodedPointAt s pos) (if surrogatePairAt s pos then 2 else 1))) := by
  constructor
  · intro h
    simp [strictRead, List.getElem?_eq_none h]
  · intro h
    have hx : s[pos]? = some s[pos] := List.getElem?_eq_getElem h
    have hgd : s.getD pos 0 = s[pos] := by
      rw [List.getD_eq_getElem?_getD, hx]
      rfl
    have hgd2 : s[pos]?.getD 0 = s[pos] := by
      rw [hx]
      rfl
    by_cases hf : isUTF16FirstSurrogate s[pos] = true
    · cases hnext : s[pos + 1]? with
      | none =>
        have hpair : surrogatePairAt s pos = false := by
          simp [surrogatePairAt, hnext]
        have hlone : loneSurrogateAt s pos = true := by
          simp [loneSurrogateAt, hgd, hgd2, hf, hpair]
        have hred : strictRead s pos = .invalid := by
          simp [strictRead, hx, hf, hnext]
        refine ⟨by simp [hred, hlone], ?_⟩
        intro hcon
        rw [hlone] at hcon
        exact absurd hcon (by simp)
      | some v =>
        by_cases hv : isUTF16SecondSurrogate v = true
        · have hpair : surrogatePairAt s pos = true := by
            simp [surrogatePairAt, hgd, hgd2, hf, hnext, hv]
          have hnotsec : isUTF16SecondSurrogate s[pos] = false := by
            simp only [isUTF16FirstSurrogate, Bool.and_eq_true, decide_eq_true_eq] at hf
            have : ¬ (0xDC00 ≤ s[pos]) := by omega
            simp [isUTF16SecondSurrogate, this]
          have hlone : loneSurrogateAt s pos = false := by
            simp [loneSurrogateAt, hgd, hgd2, hpair, hnotsec]
          have hd : s.getD (pos + 1) 0 = v := by
            rw [List.getD_eq_getElem?_getD, hnext]
            rfl
          have hred : strictRead s pos = .ok (utf16DecodeRunePair s[pos] v) 2 := by
            simp [strictRead, hx, hf, hnext, hv]
          have hd2 : s[pos + 1]?.getD 0 = v := by
            rw [hnext]
            rfl
          refine ⟨by simp [hred, hlone], ?_⟩
          intro _
          simp [hred, decodedPointAt, hpair, hgd, hd, hgd2, hd2]
        · have hpair : surrogatePairAt s pos = false := by
            simp [surrogatePairAt, hnext, hv]
          have hlone : loneSurrogateAt s pos = true := by
            simp [loneSurrogateAt, hgd, hgd2, hf, hpair]
          have hred : strictRead s pos = .invalid := by
            simp [strictRead, hx, hf, hnext, hv]
          refine ⟨by simp [hred, hlone], ?_⟩
          intro hcon
          rw [hlone] at hcon
          exact absurd hcon (by simp)
    · by_cases hs : isUTF16SecondSurrogate s[pos] = true
      · have hlone : loneSurrogateAt s pos = true := by
          simp [loneSurrogateAt, hgd, hgd2, hs]
        have hred : strictRead s pos = .invalid := by
          simp [strictRead, hx, hf, hs]
        refine ⟨by simp [hred, hlone], ?_⟩
        intro hcon
        rw [hlone] at hcon
        exact absurd hcon (by simp)
      · have hpair : surrogatePairAt s pos = false := by
          simp [surrogatePairAt, hgd, hgd2, hf]
        have hlone : loneSurrogateAt s pos = false := by
          simp [loneSurrogateAt, hgd, hgd2, hf, hs]
        have hred : strictRead s pos = .ok s[pos] 1 := by
          simp [strictRead, hx, hf, hs]
        refine ⟨by simp [hred, hlone], ?_⟩
        intro _
        simp [hred, decodedPointAt, hpair, hgd, hgd2]

/-- C7 witness: reading `[0xD800, 0xD801, 0xDC00]` at position 0 hits a
leading surrogate followed by another leading surrogate — a lone surrogate,
so the read errors (via the invalid-iff-lone clause); at position 1 the
well-formed pair decodes with no error (via the ok clause, its
no-lone-surrogate hypothesis discharged concretely). -/
theorem C7_witness :
    strictRead [0xD800, 0xD801, 0xDC00] 0 = .invalid ∧
      strictRead [0xD800, 0xD801, 0xDC00] 1 =
        .ok (decodedPointAt [0xD800, 0xD801, 0xDC00] 1)
          (if surrogatePairAt [0xD800, 0xD801, 0xDC00] 1 then 2 else 1) :=
  ⟨((C7_strict_read [0xD800, 0xD801, 0xDC00] 0).2 (by decide)).1.mpr (by decide),
    ((C7_strict_read [0xD800, 0xD801, 0xDC00] 1).2 (by decide)).2 (by decide)⟩

/-- C2 witness. -/
theorem C2_witness :
    uLength (BOM :: [0x61]) = (ValueString.asciiStr [0x61]).lengthV ∧
      (∀ i, i < [0x61].length → uCharAt (BOM :: [0x61]) i = aCharAt [0x61] i) ∧
      utf16Drain ((BOM :: [0x61]).drop 1) = [0x61] ∧
      uSameAs (BOM :: [0x61]) (.asciiStr [0x61]) = false ∧
      uEqualsV (BOM :: [0x61]) (.asciiStr [0x61]) = false ∧
      uStrictEquals (BOM :: [0x61]) (.asciiStr [0x61]) = false :=
  C2_cross_representation [0x61]

end GojaStr
